import Mathlib

/-!
Shallow embedding of the 1457-solver repository's checksum-equation solvers
(`src/PCHealSearcher.py` and `src/1457_solver.py`) and proofs about them.

Conventions of the embedding:
* Python's arbitrary-precision integers are `ℕ` where the source values are
  provably non-negative and `ℤ` where the source can go negative (the residual
  target `a` in `get_round_2`, floor divisions, `target_checksum`).
* Python `x & ((1 <<< k) - 1)` on a possibly negative `x` is mathematical
  `x % 2 ^ k` (`Int.emod`), which is how it is rendered here.
* Python `//` (floor division) is rendered as `Int.fdiv`.
* Python `dict` objects that only ever gain fresh keys are rendered as
  association lists to which entries are appended (`List (key × value)`),
  looked up with `List.lookup`; `set` objects are `Finset ℕ`, and iteration
  over a sorted set is `Finset.sort (· ≤ ·)`.
* The `move_pps` table (`dict[int, int]` in the source) is rendered as a total
  function `ℕ → ℕ`: per the repository's design every lookup is expected to
  hit, and a miss aborts the Python run, so no reachable behaviour depends on
  missing keys.
-/

/-- Function `calc_move_pp` from `src/PCHealSearcher.py`:
`(base_pp + ((base_pp // 5) * pp_ups)) % 256`. -/
def calc_move_pp (base_pp : ℕ) (pp_ups : ℕ) : ℕ :=
  (base_pp + (base_pp / 5) * pp_ups) % 256

/-- The inner scan of `get_round_1` (`src/PCHealSearcher.py`, lines 34-40) for a
fixed `key_low`: `checksum` ranges over `range(0, 0xFFFF * 24, 3 << 16)`, which
is exactly the eight values `(3 * 2 ^ 16) * i` for `i < 8`; for each, the
candidate `key_high = (checksum - key_low * 12) // 12` (Python floor division,
possibly negative) is kept when it lies in `key_highs`. -/
def get_round_1_highs (key_highs : Finset ℕ) (key_low : ℕ) : List ℕ :=
  (List.range 8).filterMap fun (i : ℕ) =>
    let checksum : ℤ := (3 * 2 ^ 16) * (i : ℤ)
    let key_high : ℤ := (checksum - key_low * 12).fdiv 12
    if 0 ≤ key_high ∧ key_high.toNat ∈ key_highs then some key_high.toNat else none

/-- Function `get_round_1` from `src/PCHealSearcher.py`: iterate `key_low` over the
sorted low set; a dict entry `key_low ↦ list of found key_highs` is created
exactly when at least one `key_high` is found.  The Python dict (insertion
ordered, keys inserted in sorted-`key_low` order) is rendered as an association
list in that order. -/
def get_round_1 (key_lows key_highs : Finset ℕ) : List (ℕ × List ℕ) :=
  (key_lows.sort (· ≤ ·)).filterMap fun key_low =>
    let hs := get_round_1_highs key_highs key_low
    if hs = [] then none else some (key_low, hs)

/-- Function `build_round_1_map` from `src/1457_solver.py`: for each `xor_value` in
sorted order, `remainder = (0x10000 - xor_value * 12) & 0xFFFF` (mathematical
mod, the subtraction can be negative), then `i` walks
`range(remainder, 0xC0000, 0x10000)` — i.e. `i = remainder + 2 ^ 16 * t` for
`t < 12` — and the first `i` with `i % 12 == 0`, `i // 12 ∈ xor_values` and
`(i // 12) & 0x4000 == 0` contributes the entry `xor_value ↦ i // 12`
(note the `break`: at most one entry per `xor_value`). -/
def build_round_1_scan (xor_values : Finset ℕ) (remainder : ℕ) : Option ℕ :=
  (List.range 12).find? fun t =>
    let i := remainder + 2 ^ 16 * t
    decide (i % 12 = 0 ∧ i / 12 ∈ xor_values ∧ i / 12 &&& 0x4000 = 0)

def build_round_1_map (xor_values : Finset ℕ) : List (ℕ × ℕ) :=
  (xor_values.sort (· ≤ ·)).filterMap fun xor_value =>
    let remainder : ℕ := (((2 ^ 16 : ℤ) - xor_value * 12) % 2 ^ 16).toNat
    (build_round_1_scan xor_values remainder).map fun t =>
      (xor_value, (remainder + 2 ^ 16 * t) / 12)

/-- One round of the bit-by-bit solver inside `get_round_2`
(`src/PCHealSearcher.py`, lines 89-102), with `one_hot = 2 ^ k` and
`mask = 2 ^ (k + 1) - 1`: each current partial solution is kept if the check
`(11 * solution + (pps_high ^ solution)) & mask == a & mask` passes, then the
bit is set (`solution |= one_hot`) and the check is repeated.  The check on the
(possibly negative) Python int `a` is `a & mask`, i.e. `a % 2 ^ (k + 1)` with
mathematical mod. -/
def solveStep (m : ℕ) (a : ℤ) (k : ℕ) (sols : List ℕ) : List ℕ :=
  sols.flatMap fun s =>
    (if (((11 * s + (m ^^^ s)) % 2 ^ (k + 1) : ℕ) : ℤ) = a % 2 ^ (k + 1)
      then [s] else []) ++
    (if (((11 * (s ||| 2 ^ k) + (m ^^^ (s ||| 2 ^ k))) % 2 ^ (k + 1) : ℕ) : ℤ) = a % 2 ^ (k + 1)
      then [s ||| 2 ^ k] else [])

/-- The solver state after the first `k` rounds of the `while one_hot < (1 << 16)`
loop, starting from `solutions = [0]`. -/
def solveAux (m : ℕ) (a : ℤ) (k : ℕ) : List ℕ :=
  (List.range k).foldl (fun sols j => solveStep m a j sols) [0]

/-- The full 16-round bit-expansion solver of `get_round_2`
(`src/PCHealSearcher.py`, lines 83-102). -/
def solveBits (m : ℕ) (a : ℤ) : List ℕ :=
  solveAux m a 16

/-- The packed word `pps_low = (pps[1] << 8) | (pps[0] << 0)` computed in
`get_round_2` (lines 61-73) from a round-1 pair, before it is XORed with
`low1`. -/
def packed_pps_low (move_pps : ℕ → ℕ) (low1 high1 : ℕ) : ℕ :=
  (calc_move_pp (move_pps high1) ((low1 >>> 2) &&& 0b11) <<< 8) |||
  (calc_move_pp (move_pps low1) ((low1 >>> 0) &&& 0b11) <<< 0)

/-- The packed word `pps_high = (pps[3] << 8) | (pps[2] << 0)` computed in
`get_round_2` (lines 61-74) from a round-1 pair, before it is XORed with
`high1`. -/
def packed_pps_high (move_pps : ℕ → ℕ) (low1 high1 : ℕ) : ℕ :=
  (calc_move_pp (move_pps high1) ((low1 >>> 6) &&& 0b11) <<< 8) |||
  (calc_move_pp (move_pps low1) ((low1 >>> 4) &&& 0b11) <<< 0)

/-- The body of the `for low2 in key_lows` loop of `get_round_2`
(lines 79-109), acting on the state `(round_2, round_2_to_round_1)`: a `low2`
already present is skipped; otherwise the residual
`a = checksum - 11 * low2 - (pps_low ^ low2)` is solved bit-by-bit and the
first returned solution lying in `key_highs` is recorded, together with the
back-reference to `(low1, high1)`.  `pps_low'`/`pps_high'` are the already
XORed `pps_low`/`pps_high` values and `checksum` the accumulator of line 75. -/
def round2Low2Step (key_highs : Finset ℕ) (pps_low' pps_high' checksum low1 high1 : ℕ)
    (st : List (ℕ × ℕ) × List (ℕ × ℕ × ℕ)) (low2 : ℕ) :
    List (ℕ × ℕ) × List (ℕ × ℕ × ℕ) :=
  if (st.1.lookup low2).isSome then st
  else
    match (solveBits pps_high'
        ((checksum : ℤ) - 11 * (low2 : ℤ) - ((pps_low' ^^^ low2 : ℕ) : ℤ))).find?
        (fun s => decide (s ∈ key_highs)) with
    | some s => (st.1 ++ [(low2, s)], st.2 ++ [(low2, low1, high1)])
    | none => st

/-- The body of the `for low1, high1 in round_1` loop of `get_round_2`
(lines 57-109): the sentinel `low1 == 0` is skipped; otherwise the packed PP
words and the checksum accumulator are derived from `(low1, high1)` and every
candidate `low2` is processed by `round2Low2Step`. -/
def round2Process (key_highs : Finset ℕ) (move_pps : ℕ → ℕ) (key_lows : List ℕ)
    (st : List (ℕ × ℕ) × List (ℕ × ℕ × ℕ)) (pair : ℕ × ℕ) :
    List (ℕ × ℕ) × List (ℕ × ℕ × ℕ) :=
  if pair.1 = 0 then st
  else
    let pps_low := packed_pps_low move_pps pair.1 pair.2
    let pps_high := packed_pps_high move_pps pair.1 pair.2
    let checksum := pair.1 * 11 + pair.2 * 11 + pps_low + pps_high
    key_lows.foldl
      (round2Low2Step key_highs (pps_low ^^^ pair.1) (pps_high ^^^ pair.2)
        checksum pair.1 pair.2) st

/-- Function `get_round_2` from `src/PCHealSearcher.py` (lines 44-110): the round-1
pairs are `get_round_1(xor_values, xor_values)` flattened in iteration order,
and the two dicts `round_2` / `round_2_to_round_1` are built by folding
`round2Process` over them starting from empty maps. -/
def get_round_2 (xor_values : Finset ℕ) (key_lows : List ℕ) (key_highs : Finset ℕ)
    (move_pps : ℕ → ℕ) : List (ℕ × ℕ) × List (ℕ × ℕ × ℕ) :=
  ((get_round_1 xor_values xor_values).flatMap fun p =>
    p.2.map fun key_high => (p.1, key_high)).foldl
    (round2Process key_highs move_pps key_lows) ([], [])

/-- Function `calc_messages` from `src/1457_solver.py` (lines 27-56).  The up-front
domain check raises `ValueError` carrying the offending value, rendered as
`Except.error target_species`.  Python's unspecified `set` iteration order for
`for new_key_high in xor_values` is rendered as sorted order; none of the
properties proved below depend on that order.  `target_checksum` is
`(1 << 16) - key_high` with no 16-bit masking, so it is rendered in `ℤ`
exactly as computed. -/
def calc_messages (target_species : ℕ) (xor_values : Finset ℕ)
    (round_1_map : List (ℕ × ℕ)) : Except ℕ (List (List (ℕ × ℕ))) :=
  if target_species ∈ xor_values then
    Except.ok
      ((match round_1_map.lookup target_species with
        | some key_high => [[(target_species, key_high)]]
        | none => []) ++
      round_1_map.flatMap fun p =>
        (xor_values.sort (· ≤ ·)).filterMap fun new_key_high =>
          if new_key_high &&& 0x4000 = 0x4000 then none
          else if (((target_species * 12 + new_key_high * 11 +
                      (new_key_high ^^^ p.2)) % 2 ^ 16 : ℕ) : ℤ) = 2 ^ 16 - (p.2 : ℤ)
          then some [(p.1, p.2), (target_species, new_key_high)]
          else none)
  else Except.error target_species

/-- The brute-force comparator of the spec's cross-check fixture, written from
the spec's words: iterate `y` over all 65536 Words and keep those where direct
evaluation of `11 * y + (y XOR m)` matches the target modulo `2 ^ 16`. -/
def brute_force_solutions (m a : ℕ) : List ℕ :=
  (List.range (2 ^ 16)).filter fun y =>
    decide ((11 * y + (y ^^^ m)) % 2 ^ 16 = a % 2 ^ 16)

/-- Instrumented evaluation counter for one `solveBits` call: each round
evaluates the equation twice per surviving partial solution (once per 1-bit
extension), exactly as in the source loop. -/
def solveEvalCount (m : ℕ) (a : ℤ) : ℕ :=
  ((List.range 16).foldl
    (fun (p : ℕ × List ℕ) k => (p.1 + 2 * p.2.length, solveStep m a k p.2))
    (0, [0])).1

/-! Bit-level helper lemmas -/

/-- Setting a clear high bit with `|||` is addition. -/
lemma lor_two_pow_of_lt {s k : ℕ} (h : s < 2 ^ k) : s ||| 2 ^ k = 2 ^ k + s := by
  have h2 := Nat.mul_add_lt_is_or h 1
  rw [Nat.lor_comm]
  simpa using h2.symm

/-- Flipping a clear high bit with `^^^` is addition. -/
lemma xor_two_pow_of_lt {s k : ℕ} (h : s < 2 ^ k) : s ^^^ 2 ^ k = 2 ^ k + s := by
  rw [← lor_two_pow_of_lt h]
  refine Nat.eq_of_testBit_eq fun i => ?_
  rw [Nat.testBit_xor, Nat.testBit_or]
  by_cases hik : i = k
  · subst hik
    rw [Nat.testBit_lt_two_pow h]
    simp
  · rw [Nat.testBit_two_pow_of_ne (Ne.symm hik)]
    simp

/-- The low `k` bits of `m ^^^ y` only depend on the low `k` bits of `y`. -/
lemma xor_mod_two_pow_right (m y k : ℕ) : (m ^^^ y % 2 ^ k) % 2 ^ k = (m ^^^ y) % 2 ^ k := by
  refine Nat.eq_of_testBit_eq fun i => ?_
  simp only [Nat.testBit_mod_two_pow, Nat.testBit_xor]
  by_cases h : i < k <;> simp [h]

/-- Casting a `% 2 ^ j` of naturals into `ℤ` gives `Int.emod`. -/
lemma cast_mod_two_pow (F j : ℕ) : ((F % 2 ^ j : ℕ) : ℤ) = (F : ℤ) % 2 ^ j := by
  push_cast
  ring_nf

/-- The low `k` bits of the checksum expression only depend on the low `k` bits
of the unknown (the key fact behind bit-expansion solving). -/
lemma checksum_mod_two_pow (m y k : ℕ) :
    (11 * (y % 2 ^ k) + (m ^^^ y % 2 ^ k)) % 2 ^ k = (11 * y + (m ^^^ y)) % 2 ^ k := by
  calc (11 * (y % 2 ^ k) + (m ^^^ y % 2 ^ k)) % 2 ^ k
      = ((11 * (y % 2 ^ k)) % 2 ^ k + (m ^^^ y % 2 ^ k) % 2 ^ k) % 2 ^ k := Nat.add_mod _ _ _
    _ = ((11 * y) % 2 ^ k + (m ^^^ y) % 2 ^ k) % 2 ^ k := by
        rw [xor_mod_two_pow_right, Nat.mul_mod, Nat.mod_mod_of_dvd _ dvd_rfl, ← Nat.mul_mod]
    _ = (11 * y + (m ^^^ y)) % 2 ^ k := (Nat.add_mod _ _ _).symm

/-! Characterization of the bit-expansion solver -/

/-- Membership in one solver round: `y` survives round `k` exactly when it is a
1-bit extension of a surviving partial solution and passes the source's check
modulo `2 ^ (k + 1)`. -/
lemma mem_ite_singleton {c : Prop} [Decidable c] {y x : ℕ} :
    y ∈ (if c then [x] else []) ↔ c ∧ y = x := by
  by_cases h : c <;> simp [h]

lemma mem_solveStep {m : ℕ} {a : ℤ} {k y : ℕ} {sols : List ℕ} :
    y ∈ solveStep m a k sols ↔
      ∃ s ∈ sols, (y = s ∨ y = s ||| 2 ^ k) ∧
        (((11 * y + (m ^^^ y)) % 2 ^ (k + 1) : ℕ) : ℤ) = a % 2 ^ (k + 1) := by
  simp only [solveStep, List.mem_flatMap, List.mem_append, mem_ite_singleton]
  constructor
  · rintro ⟨s, hs, ⟨hc, hy⟩ | ⟨hc, hy⟩⟩
    · exact ⟨s, hs, Or.inl hy, by rw [hy]; exact hc⟩
    · exact ⟨s, hs, Or.inr hy, by rw [hy]; exact hc⟩
  · rintro ⟨s, hs, hy | hy, hc⟩
    · exact ⟨s, hs, Or.inl ⟨by rw [← hy]; exact hc, hy⟩⟩
    · exact ⟨s, hs, Or.inr ⟨by rw [← hy]; exact hc, hy⟩⟩

/-- Exact characterization of the partial-solution set after `k` rounds: it
holds precisely the `k`-bit values matching the target on the low `k` bits. -/
lemma mem_solveAux (m : ℕ) (a : ℤ) :
    ∀ k y, y ∈ solveAux m a k ↔
      y < 2 ^ k ∧ (((11 * y + (m ^^^ y)) % 2 ^ k : ℕ) : ℤ) = a % 2 ^ k := by
  intro k
  induction k with
  | zero =>
      intro y
      simp [solveAux, Nat.lt_one_iff, Int.emod_one]
  | succ k ih =>
      intro y
      have hstep : solveAux m a (k + 1) = solveStep m a k (solveAux m a k) := by
        rw [solveAux, solveAux, List.range_succ, List.foldl_append]
        rfl
      rw [hstep, mem_solveStep]
      have hpow : (2 : ℕ) ^ (k + 1) = 2 ^ k + 2 ^ k := by
        rw [pow_succ]; omega
      constructor
      · rintro ⟨s, hs, hy | hy, hc⟩
        · obtain ⟨hslt, -⟩ := (ih s).mp hs
          subst hy
          exact ⟨by omega, hc⟩
        · obtain ⟨hslt, -⟩ := (ih s).mp hs
          subst hy
          rw [lor_two_pow_of_lt hslt]
          exact ⟨by omega, by rwa [lor_two_pow_of_lt hslt] at hc⟩
      · rintro ⟨hlt, hc⟩
        have hmodlt : y % 2 ^ k < 2 ^ k := Nat.mod_lt _ (Nat.two_pow_pos k)
        have hdvd : (2 : ℕ) ^ k ∣ 2 ^ (k + 1) := pow_dvd_pow 2 (Nat.le_succ k)
        have hcart : (((11 * (y % 2 ^ k) + (m ^^^ y % 2 ^ k)) % 2 ^ k : ℕ) : ℤ) = a % 2 ^ k := by
          rw [checksum_mod_two_pow, cast_mod_two_pow]
          have h1 : ((11 * y + (m ^^^ y) : ℕ) : ℤ) % 2 ^ (k + 1) = a % 2 ^ (k + 1) := by
            rw [← cast_mod_two_pow]; exact hc
          have h2 : ((2 : ℤ) ^ k) ∣ 2 ^ (k + 1) := pow_dvd_pow 2 (Nat.le_succ k)
          calc ((11 * y + (m ^^^ y) : ℕ) : ℤ) % 2 ^ k
              = ((11 * y + (m ^^^ y) : ℕ) : ℤ) % 2 ^ (k + 1) % 2 ^ k :=
                (Int.emod_emod_of_dvd _ h2).symm
            _ = a % 2 ^ (k + 1) % 2 ^ k := by rw [h1]
            _ = a % 2 ^ k := Int.emod_emod_of_dvd _ h2
        refine ⟨y % 2 ^ k, (ih _).mpr ⟨hmodlt, hcart⟩, ?_, hc⟩
        by_cases hy : y < 2 ^ k
        · exact Or.inl (Nat.mod_eq_of_lt hy).symm
        · refine Or.inr ?_
          have hysub : y % 2 ^ k = y - 2 ^ k := by
            rw [Nat.mod_eq_sub_mod (by omega), Nat.mod_eq_of_lt (by omega)]
          rw [lor_two_pow_of_lt hmodlt, hysub]
          omega

/-- Exact characterization of the full 16-round solver. -/
lemma mem_solveBits {m y : ℕ} {a : ℤ} :
    y ∈ solveBits m a ↔
      y < 2 ^ 16 ∧ (((11 * y + (m ^^^ y)) % 2 ^ 16 : ℕ) : ℤ) = a % 2 ^ 16 :=
  mem_solveAux m a 16 y

lemma solveAux_succ (m : ℕ) (a : ℤ) (k : ℕ) :
    solveAux m a (k + 1) = solveStep m a k (solveAux m a k) := by
  rw [solveAux, solveAux, List.range_succ, List.foldl_append]
  rfl

/-- Soundness of the solver: every returned value passes the final (full
16-bit) check. -/
lemma solveBits_sound {m y : ℕ} {a : ℤ} (h : y ∈ solveBits m a) :
    ((11 * y + (m ^^^ y) : ℕ) : ℤ) % 2 ^ 16 = a % 2 ^ 16 := by
  have h2 := (mem_solveBits.mp h).2
  rwa [cast_mod_two_pow] at h2

lemma solveBits_lt {m y : ℕ} {a : ℤ} (h : y ∈ solveBits m a) : y < 2 ^ 16 :=
  (mem_solveBits.mp h).1

/-- Claim C1: for every residual target and mask, the 16-round bit-expansion
loop started from the single partial solution 0 returns exactly the Words
`y < 2 ^ 16` with `(11 * y + (y XOR m)) mod 2 ^ 16 = a mod 2 ^ 16` — the same
set a brute-force scan over all 65536 Words returns. -/
theorem C1_bit_expansion_matches_brute_force (a m y : ℕ) :
    y ∈ solveBits m (a : ℤ) ↔ y ∈ brute_force_solutions m a := by
  rw [mem_solveBits, brute_force_solutions, List.mem_filter, List.mem_range,
    decide_eq_true_eq, Nat.xor_comm y m]
  constructor
  · rintro ⟨hlt, hc⟩
    rw [← cast_mod_two_pow a 16] at hc
    exact ⟨hlt, by exact_mod_cast hc⟩
  · rintro ⟨hlt, hc⟩
    refine ⟨hlt, ?_⟩
    rw [← cast_mod_two_pow a 16]
    exact_mod_cast hc

/-! Bit-15 symmetry of the solver (for C9) -/

/-- Flipping bit 15 of a 16-bit word adds `2 ^ 15` modulo `2 ^ 16`. -/
lemma xor_top_bit_mod {w : ℕ} (h : w < 2 ^ 16) :
    ((w ^^^ 2 ^ 15 : ℕ) : ℤ) % 2 ^ 16 = ((w : ℤ) + 2 ^ 15) % 2 ^ 16 := by
  by_cases hw : w < 2 ^ 15
  · rw [xor_two_pow_of_lt hw]
    push_cast
    ring_nf
  · have hv : w - 2 ^ 15 < 2 ^ 15 := by omega
    have hxv : (w - 2 ^ 15) ^^^ 2 ^ 15 = w := by
      rw [xor_two_pow_of_lt hv]; omega
    have hflip : w ^^^ 2 ^ 15 = w - 2 ^ 15 := by
      conv_lhs => rw [← hxv]
      rw [Nat.xor_cancel_right]
    rw [hflip]
    omega

/-- Flipping bit 15 of the unknown does not change the checksum expression
modulo `2 ^ 16` (the change is `10 * 2 ^ 15` or `12 * 2 ^ 15`, both multiples
of `2 ^ 16`). -/
lemma checksum_flip_top {m y : ℕ} (hm : m < 2 ^ 16) (hy : y < 2 ^ 16) :
    ((11 * (y ^^^ 2 ^ 15) + (m ^^^ (y ^^^ 2 ^ 15)) : ℕ) : ℤ) % 2 ^ 16
      = ((11 * y + (m ^^^ y) : ℕ) : ℤ) % 2 ^ 16 := by
  have hz : m ^^^ y < 2 ^ 16 := Nat.xor_lt_two_pow hm hy
  have h1 : m ^^^ (y ^^^ 2 ^ 15) = (m ^^^ y) ^^^ 2 ^ 15 := by
    rw [Nat.xor_assoc]
  rw [h1]
  have hu := xor_top_bit_mod hy
  have hz' := xor_top_bit_mod hz
  push_cast at hu hz' ⊢
  omega

/-- The partial-solution lists never contain duplicates. -/
lemma solveAux_nodup (m : ℕ) (a : ℤ) : ∀ k, (solveAux m a k).Nodup := by
  intro k
  induction k with
  | zero => simp [solveAux]
  | succ k ih =>
      rw [solveAux_succ, solveStep, List.nodup_flatMap]
      constructor
      · intro s hs
        have hslt : s < 2 ^ k := ((mem_solveAux m a k s).mp hs).1
        have hne : s ≠ s ||| 2 ^ k := by
          rw [lor_two_pow_of_lt hslt]; omega
        by_cases h1 : (((11 * s + (m ^^^ s)) % 2 ^ (k + 1) : ℕ) : ℤ) = a % 2 ^ (k + 1) <;>
          by_cases h2 : (((11 * (s ||| 2 ^ k) + (m ^^^ (s ||| 2 ^ k))) % 2 ^ (k + 1) : ℕ) : ℤ)
            = a % 2 ^ (k + 1)
        · rw [if_pos h1, if_pos h2]; simp [hne]
        · rw [if_pos h1, if_neg h2]; simp
        · rw [if_neg h1, if_pos h2]; simp
        · rw [if_neg h1, if_neg h2]; simp
      · refine List.Pairwise.imp_of_mem ?_ ih
        intro s t hsmem htmem hst x hxs hxt
        have hslt : s < 2 ^ k := ((mem_solveAux m a k s).mp hsmem).1
        have htlt : t < 2 ^ k := ((mem_solveAux m a k t).mp htmem).1
        have hxs' : x = s ∨ x = s ||| 2 ^ k := by
          rcases List.mem_append.mp hxs with h | h <;> rw [mem_ite_singleton] at h
          · exact Or.inl h.2
          · exact Or.inr h.2
        have hxt' : x = t ∨ x = t ||| 2 ^ k := by
          rcases List.mem_append.mp hxt with h | h <;> rw [mem_ite_singleton] at h
          · exact Or.inl h.2
          · exact Or.inr h.2
        rw [lor_two_pow_of_lt hslt] at hxs'
        rw [lor_two_pow_of_lt htlt] at hxt'
        omega

/-- In the final round both 1-bit extensions of a partial solution pass or fail
together (their checksums agree modulo `2 ^ 16`), so the output of round 16
always has even length. -/
lemma solveStep15_length_even {m : ℕ} (hm : m < 2 ^ 16) (a : ℤ) :
    ∀ sols : List ℕ, (∀ s ∈ sols, s < 2 ^ 15) →
      (solveStep m a 15 sols).length % 2 = 0 := by
  intro sols
  induction sols with
  | nil => intro _; simp [solveStep]
  | cons s t ih =>
      intro hb
      have hs : s < 2 ^ 15 := hb s (List.mem_cons_self s t)
      have ht := ih fun x hx => hb x (List.mem_cons_of_mem _ hx)
      rw [solveStep] at ht ⊢
      rw [List.flatMap_cons, List.length_append]
      have hor : s ||| 2 ^ 15 = s ^^^ 2 ^ 15 := by
        rw [lor_two_pow_of_lt hs, ← xor_two_pow_of_lt hs]
      have hs16 : s < 2 ^ 16 := by omega
      have hflip := checksum_flip_top hm hs16
      have hcond :
          ((((11 * (s ||| 2 ^ 15) + (m ^^^ (s ||| 2 ^ 15))) % 2 ^ (15 + 1) : ℕ)) : ℤ)
              = a % 2 ^ (15 + 1)
            ↔ (((11 * s + (m ^^^ s)) % 2 ^ (15 + 1) : ℕ) : ℤ) = a % 2 ^ (15 + 1) := by
        rw [hor, cast_mod_two_pow, cast_mod_two_pow]
        rw [show (15 : ℕ) + 1 = 16 from rfl]
        rw [hflip]
      by_cases hc : (((11 * s + (m ^^^ s)) % 2 ^ (15 + 1) : ℕ) : ℤ) = a % 2 ^ (15 + 1)
      · rw [if_pos hc, if_pos (hcond.mpr hc)]
        simpa using ht
      · rw [if_neg hc, if_neg (fun h => hc (hcond.mp h))]
        simpa using ht

/-- Claim C9: the solver's final solution list is closed under XOR with
`0x8000` (flipping bit 15 changes the checksum by a multiple of `2 ^ 16`), is
duplicate-free, and its cardinality is always even — never a singleton. -/
theorem C9_solutions_closed_under_top_bit_flip (m : ℕ) (a : ℤ) (y : ℕ) (hm : m < 2 ^ 16) :
    (y ∈ solveBits m a ↔ y ^^^ 0x8000 ∈ solveBits m a) ∧
      (solveBits m a).Nodup ∧
      (solveBits m a).toFinset.card % 2 = 0 := by
  have h15 : (0x8000 : ℕ) = 2 ^ 15 := by norm_num
  constructor
  · rw [h15]
    constructor
    · intro hy
      have hylt := solveBits_lt hy
      rw [mem_solveBits]
      refine ⟨Nat.xor_lt_two_pow hylt (by norm_num), ?_⟩
      rw [cast_mod_two_pow, checksum_flip_top hm hylt, ← cast_mod_two_pow]
      exact (mem_solveBits.mp hy).2
    · intro hy
      have hylt' := solveBits_lt hy
      have hylt : y < 2 ^ 16 := by
        have h2 := Nat.xor_lt_two_pow hylt' (show (2 : ℕ) ^ 15 < 2 ^ 16 by norm_num)
        rwa [Nat.xor_cancel_right] at h2
      rw [mem_solveBits]
      refine ⟨hylt, ?_⟩
      have h2 := (mem_solveBits.mp hy).2
      rwa [cast_mod_two_pow, checksum_flip_top hm hylt, ← cast_mod_two_pow] at h2
  · have hnd : (solveBits m a).Nodup := solveAux_nodup m a 16
    refine ⟨hnd, ?_⟩
    rw [List.toFinset_card_of_nodup hnd]
    rw [show solveBits m a = solveStep m a 15 (solveAux m a 15) from solveAux_succ m a 15]
    exact solveStep15_length_even hm a _ fun s hs => ((mem_solveAux m a 15 s).mp hs).1

/-- Witness for C9 at `m = 0`, `a = 0`, `y = 0`. -/
theorem C9_solutions_closed_under_top_bit_flip_witness :
    (0 ∈ solveBits 0 0 ↔ 0 ^^^ 0x8000 ∈ solveBits 0 0) ∧
      (solveBits 0 0).Nodup ∧
      (solveBits 0 0).toFinset.card % 2 = 0 :=
  C9_solutions_closed_under_top_bit_flip 0 0 0 (by norm_num)

/-! Evaluation-count accounting (for C8) -/

/-- One solver round makes at most two evaluations per surviving candidate, so
it at most doubles the candidate list. -/
lemma solveStep_length_le (m : ℕ) (a : ℤ) (k : ℕ) :
    ∀ sols : List ℕ, (solveStep m a k sols).length ≤ 2 * sols.length := by
  intro sols
  induction sols with
  | nil => simp [solveStep]
  | cons s t ih =>
      rw [solveStep, List.flatMap_cons, List.length_append]
      rw [solveStep] at ih
      have h1 : (if (((11 * s + (m ^^^ s)) % 2 ^ (k + 1) : ℕ) : ℤ) = a % 2 ^ (k + 1)
          then [s] else []).length ≤ 1 := by
        by_cases h : (((11 * s + (m ^^^ s)) % 2 ^ (k + 1) : ℕ) : ℤ) = a % 2 ^ (k + 1)
        · rw [if_pos h]; simp
        · rw [if_neg h]; simp
      have h2 : (if (((11 * (s ||| 2 ^ k) + (m ^^^ (s ||| 2 ^ k))) % 2 ^ (k + 1) : ℕ) : ℤ)
            = a % 2 ^ (k + 1) then [s ||| 2 ^ k] else []).length ≤ 1 := by
        by_cases h : (((11 * (s ||| 2 ^ k) + (m ^^^ (s ||| 2 ^ k))) % 2 ^ (k + 1) : ℕ) : ℤ)
            = a % 2 ^ (k + 1)
        · rw [if_pos h]; simp
        · rw [if_neg h]; simp
      rw [List.length_append, List.length_cons]
      omega

lemma solveAux_length_le (m : ℕ) (a : ℤ) : ∀ n, (solveAux m a n).length ≤ 2 ^ n := by
  intro n
  induction n with
  | zero => simp [solveAux]
  | succ n ih =>
      rw [solveAux_succ]
      have h1 := solveStep_length_le m a n (solveAux m a n)
      have h2 : (2 : ℕ) ^ (n + 1) = 2 * 2 ^ n := by rw [pow_succ]; ring
      omega

lemma solveEvalCount_foldl_snd (m : ℕ) (a : ℤ) : ∀ n,
    ((List.range n).foldl
      (fun (p : ℕ × List ℕ) k => (p.1 + 2 * p.2.length, solveStep m a k p.2))
      (0, [0])).2 = solveAux m a n := by
  intro n
  induction n with
  | zero => simp [solveAux]
  | succ n ih =>
      rw [List.range_succ, List.foldl_append, solveAux_succ, ← ih]
      rfl

lemma solveEvalCount_foldl_le (m : ℕ) (a : ℤ) : ∀ n,
    ((List.range n).foldl
      (fun (p : ℕ × List ℕ) k => (p.1 + 2 * p.2.length, solveStep m a k p.2))
      (0, [0])).1 ≤ 2 * (2 ^ n - 1) := by
  intro n
  induction n with
  | zero => simp
  | succ n ih =>
      rw [List.range_succ, List.foldl_append]
      simp only [List.foldl_cons, List.foldl_nil]
      have hlen : ((List.range n).foldl
          (fun (p : ℕ × List ℕ) k => (p.1 + 2 * p.2.length, solveStep m a k p.2))
          (0, [0])).2.length ≤ 2 ^ n := by
        rw [solveEvalCount_foldl_snd]
        exact solveAux_length_le m a n
      have h2 : (2 : ℕ) ^ (n + 1) = 2 * 2 ^ n := by rw [pow_succ]; ring
      have h3 : (1 : ℕ) ≤ 2 ^ n := Nat.one_le_two_pow
      omega

/-- Claim C8 counterexample: at mask 0 and residual target 0 a single solver
call performs 118 equation evaluations (not at most 32), and the surviving
candidate list already has 4 elements (not at most 2) after two rounds. -/
theorem C8_counterexample_eval_count :
    solveEvalCount 0 0 = 118 ∧ ¬ solveEvalCount 0 0 ≤ 32 ∧ (solveAux 0 0 2).length = 4 := by
  refine ⟨by decide, by decide, by decide⟩

/-- Claim C8 amended: each of the 16 rounds performs two equation evaluations
per surviving partial solution; a round at most doubles the candidate list, so
a call performs at most `2 * (2 ^ 16 - 1) = 131070` evaluations — but the
32-evaluation bound of the original claim does not hold (see the
counterexample, which reaches 118 evaluations). -/
theorem C8_amended_eval_bounds (m : ℕ) (a : ℤ) (k : ℕ) (sols : List ℕ) :
    solveEvalCount m a ≤ 2 * (2 ^ 16 - 1) ∧
      (solveStep m a k sols).length ≤ 2 * sols.length :=
  ⟨solveEvalCount_foldl_le m a 16, solveStep_length_le m a k sols⟩

/-! Round-1 probe lemmas (for C3 and C4) -/

lemma fdiv_candidate (key_low i : ℕ) :
    ((3 * 2 ^ 16) * (i : ℤ) - (key_low : ℤ) * 12).fdiv 12 = 16384 * (i : ℤ) - key_low := by
  have h : (3 * 2 ^ 16) * (i : ℤ) - (key_low : ℤ) * 12 = 12 * (16384 * (i : ℤ) - key_low) := by
    ring
  rw [h, Int.mul_fdiv_cancel_left _ (by norm_num)]

/-- The highs recorded for a fixed low are exactly the admissible values of the
form `16384 * i - key_low` for a stride index `i < 8`. -/
lemma mem_get_round_1_highs {key_highs : Finset ℕ} {key_low h : ℕ} :
    h ∈ get_round_1_highs key_highs key_low ↔
      ∃ i : ℕ, i < 8 ∧ h ∈ key_highs ∧ (h : ℤ) = 16384 * (i : ℤ) - key_low := by
  simp only [get_round_1_highs, List.mem_filterMap, List.mem_range, fdiv_candidate]
  constructor
  · rintro ⟨i, hi, hsome⟩
    split at hsome
    · next hcond =>
        obtain ⟨hpos, hmem⟩ := hcond
        injection hsome with hEq
        refine ⟨i, hi, by rwa [hEq] at hmem, ?_⟩
        rw [← hEq, Int.toNat_of_nonneg hpos]
    · cases hsome
  · rintro ⟨i, hi, hmem, hval⟩
    have hpos : (0 : ℤ) ≤ 16384 * (i : ℤ) - key_low := by omega
    have htn : (16384 * (i : ℤ) - key_low).toNat = h := by omega
    exact ⟨i, hi, by rw [if_pos ⟨hpos, by rw [htn]; exact hmem⟩, htn]⟩

/-- Entry-level characterization of the `get_round_1` association list. -/
lemma mem_get_round_1 {key_lows key_highs : Finset ℕ} {low : ℕ} {hs : List ℕ} :
    (low, hs) ∈ get_round_1 key_lows key_highs ↔
      low ∈ key_lows ∧ hs = get_round_1_highs key_highs low ∧ hs ≠ [] := by
  simp only [get_round_1, List.mem_filterMap, Finset.mem_sort]
  constructor
  · rintro ⟨x, hx, hsome⟩
    split at hsome
    · cases hsome
    · next hne =>
        injection hsome with hpair
        injection hpair with h1 h2
        subst h1
        subst h2
        exact ⟨hx, rfl, hne⟩
  · rintro ⟨hlow, rfl, hne⟩
    exact ⟨low, hlow, by rw [if_neg hne]⟩

/-- The recorded highs are strictly increasing (ascending discovery order). -/
lemma get_round_1_highs_pairwise (key_highs : Finset ℕ) (key_low : ℕ) :
    (get_round_1_highs key_highs key_low).Pairwise (· < ·) := by
  simp only [get_round_1_highs]
  refine List.Pairwise.filterMap _ ?_ (List.pairwise_lt_range 8)
  intro i j hij b hb c hc
  simp only [fdiv_candidate, Option.mem_def] at hb hc
  have hbv : (b : ℤ) = 16384 * (i : ℤ) - key_low := by
    split at hb
    · next hcond =>
        injection hb with hEq
        rw [← hEq, Int.toNat_of_nonneg hcond.1]
    · cases hb
  have hcv : (c : ℤ) = 16384 * (j : ℤ) - key_low := by
    split at hc
    · next hcond =>
        injection hc with hEq
        rw [← hEq, Int.toNat_of_nonneg hcond.1]
    · cases hc
  omega

/-- Soundness of each `build_round_1_map` entry: the checksum congruence holds,
the high is admissible, and bit 14 of the high is clear. -/
lemma mem_build_round_1_map {xor_values : Finset ℕ} {low high : ℕ}
    (h : (low, high) ∈ build_round_1_map xor_values) :
    (12 * low + 12 * high) % 2 ^ 16 = 0 ∧ high ∈ xor_values ∧ high &&& 0x4000 = 0 := by
  simp only [build_round_1_map, List.mem_filterMap, Finset.mem_sort] at h
  obtain ⟨x, hx, hsome⟩ := h
  rw [Option.map_eq_some'] at hsome
  obtain ⟨t, hfind, hval⟩ := hsome
  injection hval with h1 h2
  simp only [build_round_1_scan] at hfind
  have hp := List.find?_some hfind
  simp only [decide_eq_true_eq] at hp
  obtain ⟨hmod, hmem, hbit⟩ := hp
  rw [← h1, ← h2]
  refine ⟨?_, hmem, hbit⟩
  omega

lemma filterMap_keys_sublist {β : Type} (f : ℕ → Option (ℕ × β))
    (hf : ∀ x p, f x = some p → p.1 = x) :
    ∀ l : List ℕ, ((l.filterMap f).map Prod.fst).Sublist l := by
  intro l
  induction l with
  | nil => simp
  | cons x t ih =>
      rw [List.filterMap_cons]
      cases hfx : f x with
      | none => exact ih.cons x
      | some p =>
          rw [List.map_cons, hf x p hfx]
          exact ih.cons₂ x

/-- Map `build_round_1_map` records at most one high per low (the `break` in the
source): its keys are exactly distinct sorted admissible values. -/
lemma build_round_1_map_keys_nodup (xv : Finset ℕ) :
    ((build_round_1_map xv).map Prod.fst).Nodup := by
  have hsub : ((build_round_1_map xv).map Prod.fst).Sublist (xv.sort (· ≤ ·)) := by
    simp only [build_round_1_map]
    refine filterMap_keys_sublist _ ?_ _
    intro x p hfx
    rw [Option.map_eq_some'] at hfx
    obtain ⟨t, -, hval⟩ := hfx
    rw [← hval]
  exact List.Nodup.sublist hsub (Finset.sort_nodup _ _)

/-! Claims C3 and C4 -/

lemma sort_c3_set : ({1, 3, 0x8002} : Finset ℕ).sort (· ≤ ·) = [1, 3, 0x8002] := by
  rw [Finset.sort_insert, Finset.sort_insert, Finset.sort_singleton]
  · intro b hb; simp at hb; omega
  · decide
  · intro b hb; simp at hb; omega
  · decide

lemma get_round_1_c3_empty : get_round_1 {1, 3, 0x8002} {1, 3, 0x8002} = [] := by
  simp only [get_round_1, sort_c3_set]
  decide

lemma build_round_1_map_c3_empty : build_round_1_map {1, 3, 0x8002} = [] := by
  simp only [build_round_1_map, sort_c3_set]
  decide

/-- Claim C3 counterexample: `get_round_1` itself performs no bit-14 filtering —
with supplied sets `{1}` and `{0x7FFF}` it returns the pair `(1, 0x7FFF)` whose
high has bit 14 set (the bit-14 exclusion in the program lives at the call site
and in `build_round_1_map`, not in the probe). -/
theorem C3_counterexample_bit14_unchecked :
    (1, [0x7FFF]) ∈ get_round_1 {1} {0x7FFF} ∧ (0x7FFF : ℕ) &&& 0x4000 ≠ 0 := by
  constructor
  · rw [mem_get_round_1]
    exact ⟨by decide, by decide, by decide⟩
  · decide

/-- Claim C3 amended: every pair returned by `get_round_1` satisfies the
checksum congruence and high-admissibility (but not the bit-14 exclusion, which
is enforced only by the supplied set at the call site); every entry of
`build_round_1_map` additionally has bit 14 of its high clear; and with the
admissible set `{0x0001, 0x0003, 0x8002}` neither probe ever returns `0x8002`
as a high (both return nothing at all for that set). -/
theorem C3_amended_round_1_probe
    (key_lows key_highs xor_values : Finset ℕ) (low h low' high' : ℕ) (hs : List ℕ)
    (h1 : (low, hs) ∈ get_round_1 key_lows key_highs) (h2 : h ∈ hs)
    (h3 : (low', high') ∈ build_round_1_map xor_values) :
    (low ∈ key_lows ∧ h ∈ key_highs ∧ (12 * low + 12 * h) % 2 ^ 16 = 0) ∧
      ((12 * low' + 12 * high') % 2 ^ 16 = 0 ∧ high' ∈ xor_values ∧ high' &&& 0x4000 = 0) ∧
      get_round_1 {1, 3, 0x8002} {1, 3, 0x8002} = [] ∧
      build_round_1_map {1, 3, 0x8002} = [] := by
  obtain ⟨hlow, hhs, -⟩ := mem_get_round_1.mp h1
  rw [hhs] at h2
  obtain ⟨i, hi, hmem, hval⟩ := mem_get_round_1_highs.mp h2
  exact ⟨⟨hlow, hmem, by omega⟩, mem_build_round_1_map h3,
    get_round_1_c3_empty, build_round_1_map_c3_empty⟩

/-- Witness for the amended C3 at concrete inputs. -/
theorem C3_amended_round_1_probe_witness :
    ((1 ∈ ({1} : Finset ℕ) ∧ 0x3FFF ∈ ({0x3FFF} : Finset ℕ) ∧
        (12 * 1 + 12 * 0x3FFF) % 2 ^ 16 = 0) ∧
      ((12 * 0 + 12 * 0) % 2 ^ 16 = 0 ∧ 0 ∈ ({0} : Finset ℕ) ∧ 0 &&& 0x4000 = 0) ∧
      get_round_1 {1, 3, 0x8002} {1, 3, 0x8002} = [] ∧
      build_round_1_map {1, 3, 0x8002} = []) :=
  C3_amended_round_1_probe {1} {0x3FFF} {0} 1 0x3FFF 0 0 [0x3FFF]
    (mem_get_round_1.mpr ⟨by decide, by decide, by decide⟩)
    (by decide)
    (by simp only [build_round_1_map, Finset.sort_singleton]; decide)

/-- Claim C4 counterexample: `build_round_1_map` drops satisfying highs.  With
admissible set `{0, 0x4000, 0x8000}`, the low `0x4000` has the two satisfying
bit-14-free admissible highs `0` and `0x8000`, but the map keeps only the first
(`0`): the pair `(0x4000, 0x8000)` is absent. -/
theorem C4_counterexample_build_map_drops_highs :
    build_round_1_map {0, 0x4000, 0x8000} = [(0, 0), (0x4000, 0), (0x8000, 0)] ∧
      (12 * 0x4000 + 12 * 0x8000) % 2 ^ 16 = 0 ∧
      (0x8000 : ℕ) ∈ ({0, 0x4000, 0x8000} : Finset ℕ) ∧
      (0x8000 : ℕ) &&& 0x4000 = 0 ∧
      (0x4000, 0x8000) ∉ build_round_1_map {0, 0x4000, 0x8000} := by
  have hsort : ({0, 0x4000, 0x8000} : Finset ℕ).sort (· ≤ ·) = [0, 0x4000, 0x8000] := by
    rw [Finset.sort_insert, Finset.sort_insert, Finset.sort_singleton]
    · intro b hb; simp at hb; omega
    · decide
    · intro b hb; simp at hb; omega
    · decide
  have hmap : build_round_1_map {0, 0x4000, 0x8000} = [(0, 0), (0x4000, 0), (0x8000, 0)] := by
    simp only [build_round_1_map, hsort]
    decide
  exact ⟨hmap, by decide, by decide, by decide, by rw [hmap]; decide⟩

/-- Claim C4 amended: the `get_round_1` probe retains every satisfying high —
for every admissible `(low, high)` Word pair meeting the checksum congruence,
`high` appears in `low`'s entry, and each entry lists its highs in strictly
ascending (discovery) order; `build_round_1_map`, by contrast, keeps at most
one high per low (first found), so there each low has a single entry. -/
theorem C4_amended_probe_retains_all_highs
    (key_lows key_highs : Finset ℕ) (low h : ℕ)
    (hlow : low ∈ key_lows) (hh : h ∈ key_highs)
    (hlow16 : low < 2 ^ 16) (hh16 : h < 2 ^ 16)
    (heq : (12 * low + 12 * h) % 2 ^ 16 = 0) :
    (∃ hs, (low, hs) ∈ get_round_1 key_lows key_highs ∧ h ∈ hs ∧
        hs.Pairwise (· < ·)) ∧
      ∀ xv : Finset ℕ, ((build_round_1_map xv).map Prod.fst).Nodup := by
  constructor
  · have hk : ∃ i : ℕ, i < 8 ∧ (h : ℤ) = 16384 * (i : ℤ) - low := by
      refine ⟨(12 * low + 12 * h) / 2 ^ 16 / 3, by omega, by omega⟩
    obtain ⟨i, hi, hval⟩ := hk
    have hmem : h ∈ get_round_1_highs key_highs low :=
      mem_get_round_1_highs.mpr ⟨i, hi, hh, hval⟩
    exact ⟨get_round_1_highs key_highs low,
      mem_get_round_1.mpr ⟨hlow, rfl, List.ne_nil_of_mem hmem⟩,
      hmem, get_round_1_highs_pairwise _ _⟩
  · intro xv
    exact build_round_1_map_keys_nodup xv

/-- Witness for the amended C4 at concrete inputs. -/
theorem C4_amended_probe_retains_all_highs_witness :
    (∃ hs, (1, hs) ∈ get_round_1 {1} {0x3FFF} ∧ 0x3FFF ∈ hs ∧
        hs.Pairwise (· < ·)) ∧
      ∀ xv : Finset ℕ, ((build_round_1_map xv).map Prod.fst).Nodup :=
  C4_amended_probe_retains_all_highs {1} {0x3FFF} 1 0x3FFF
    (by decide) (by decide) (by decide) (by decide) (by decide)

/-! Round-2 orchestrator lemmas (for C2, C5, C6) -/

lemma lookup_append_of_some {β : Type} {l t : List (ℕ × β)} {k : ℕ} {v : β}
    (h : l.lookup k = some v) : (l ++ t).lookup k = some v := by
  induction l with
  | nil => cases h
  | cons p r ih =>
      obtain ⟨pk, pv⟩ := p
      rw [List.lookup_cons] at h
      rw [List.cons_append, List.lookup_cons]
      cases hbk : k == pk with
      | true => rw [hbk] at h; exact h
      | false => rw [hbk] at h; exact ih h

lemma lookup_isSome_of_mem {β : Type} {l : List (ℕ × β)} {k : ℕ} {v : β}
    (h : (k, v) ∈ l) : (l.lookup k).isSome = true := by
  induction l with
  | nil => cases h
  | cons p r ih =>
      obtain ⟨pk, pv⟩ := p
      rw [List.lookup_cons]
      rcases List.mem_cons.mp h with heq | hmem
      · injection heq with e1 e2
        rw [← e1, beq_self_eq_true]
        rfl
      · cases hbk : k == pk with
        | true => rfl
        | false => exact ih hmem

/-- The per-`low2` step only ever appends to both maps. -/
lemma round2Low2Step_grows (key_highs : Finset ℕ) (pl ph cks l1 h1 : ℕ)
    (st : List (ℕ × ℕ) × List (ℕ × ℕ × ℕ)) (low2 : ℕ) :
    st.1 <+: (round2Low2Step key_highs pl ph cks l1 h1 st low2).1 ∧
      st.2 <+: (round2Low2Step key_highs pl ph cks l1 h1 st low2).2 := by
  unfold round2Low2Step
  split
  · exact ⟨List.prefix_rfl, List.prefix_rfl⟩
  · split
    · exact ⟨List.prefix_append _ _, List.prefix_append _ _⟩
    · exact ⟨List.prefix_rfl, List.prefix_rfl⟩

lemma foldl_round2Low2Step_grows (key_highs : Finset ℕ) (pl ph cks l1 h1 : ℕ)
    (lows : List ℕ) : ∀ st : List (ℕ × ℕ) × List (ℕ × ℕ × ℕ),
    st.1 <+: (lows.foldl (round2Low2Step key_highs pl ph cks l1 h1) st).1 ∧
      st.2 <+: (lows.foldl (round2Low2Step key_highs pl ph cks l1 h1) st).2 := by
  induction lows with
  | nil => intro st; exact ⟨List.prefix_rfl, List.prefix_rfl⟩
  | cons x r ih =>
      intro st
      rw [List.foldl_cons]
      obtain ⟨hs1, hs2⟩ := round2Low2Step_grows key_highs pl ph cks l1 h1 st x
      obtain ⟨hr1, hr2⟩ := ih (round2Low2Step key_highs pl ph cks l1 h1 st x)
      exact ⟨hs1.trans hr1, hs2.trans hr2⟩

/-- A single round-1 pair's processing only ever appends to both maps. -/
lemma round2Process_grows (key_highs : Finset ℕ) (move_pps : ℕ → ℕ) (key_lows : List ℕ)
    (st : List (ℕ × ℕ) × List (ℕ × ℕ × ℕ)) (pair : ℕ × ℕ) :
    st.1 <+: (round2Process key_highs move_pps key_lows st pair).1 ∧
      st.2 <+: (round2Process key_highs move_pps key_lows st pair).2 := by
  simp only [round2Process]
  split
  · exact ⟨List.prefix_rfl, List.prefix_rfl⟩
  · exact foldl_round2Low2Step_grows _ _ _ _ _ _ _ _

lemma foldl_round2Process_grows (key_highs : Finset ℕ) (move_pps : ℕ → ℕ)
    (key_lows : List ℕ) (pairs : List (ℕ × ℕ)) :
    ∀ st : List (ℕ × ℕ) × List (ℕ × ℕ × ℕ),
    st.1 <+: (pairs.foldl (round2Process key_highs move_pps key_lows) st).1 ∧
      st.2 <+: (pairs.foldl (round2Process key_highs move_pps key_lows) st).2 := by
  induction pairs with
  | nil => intro st; exact ⟨List.prefix_rfl, List.prefix_rfl⟩
  | cons p r ih =>
      intro st
      rw [List.foldl_cons]
      obtain ⟨hs1, hs2⟩ := round2Process_grows key_highs move_pps key_lows st p
      obtain ⟨hr1, hr2⟩ := ih (round2Process key_highs move_pps key_lows st p)
      exact ⟨hs1.trans hr1, hs2.trans hr2⟩

/-- Entries already recorded are preserved by any further processing. -/
lemma foldl_round2Process_lookup (key_highs : Finset ℕ) (move_pps : ℕ → ℕ)
    (key_lows : List ℕ) (pairs : List (ℕ × ℕ))
    (st : List (ℕ × ℕ) × List (ℕ × ℕ × ℕ)) :
    (∀ l2 h2, st.1.lookup l2 = some h2 →
      (pairs.foldl (round2Process key_highs move_pps key_lows) st).1.lookup l2 = some h2) ∧
    (∀ l2 b, st.2.lookup l2 = some b →
      (pairs.foldl (round2Process key_highs move_pps key_lows) st).2.lookup l2 = some b) := by
  obtain ⟨⟨t1, ht1⟩, ⟨t2, ht2⟩⟩ := foldl_round2Process_grows key_highs move_pps key_lows pairs st
  constructor
  · intro l2 h2 h
    rw [← ht1]
    exact lookup_append_of_some h
  · intro l2 b h
    rw [← ht2]
    exact lookup_append_of_some h

/-- Claim C5: the ChainMap state is first-wins and monotone — once
`round_2[low2]` and its back-reference are recorded, processing any further
round-1 pairs neither removes nor overwrites them (both maps only grow, by
appending), and a `low2` already present makes the per-`low2` step a no-op
before any solving. -/
theorem C5_chainmap_first_wins_monotone
    (key_highs : Finset ℕ) (move_pps : ℕ → ℕ) (key_lows : List ℕ)
    (pairs : List (ℕ × ℕ)) (st : List (ℕ × ℕ) × List (ℕ × ℕ × ℕ))
    (l2 h2 : ℕ) (b : ℕ × ℕ) (pl ph cks l1 hi1 : ℕ)
    (hl : st.1.lookup l2 = some h2) (hb : st.2.lookup l2 = some b) :
    st.1 <+: (pairs.foldl (round2Process key_highs move_pps key_lows) st).1 ∧
      st.2 <+: (pairs.foldl (round2Process key_highs move_pps key_lows) st).2 ∧
      (pairs.foldl (round2Process key_highs move_pps key_lows) st).1.lookup l2 = some h2 ∧
      (pairs.foldl (round2Process key_highs move_pps key_lows) st).2.lookup l2 = some b ∧
      round2Low2Step key_highs pl ph cks l1 hi1 st l2 = st := by
  obtain ⟨hg1, hg2⟩ := foldl_round2Process_grows key_highs move_pps key_lows pairs st
  obtain ⟨hp1, hp2⟩ := foldl_round2Process_lookup key_highs move_pps key_lows pairs st
  refine ⟨hg1, hg2, hp1 l2 h2 hl, hp2 l2 b hb, ?_⟩
  unfold round2Low2Step
  rw [if_pos (by rw [hl]; rfl)]

/-- Witness for C5 at a concrete recorded entry. -/
theorem C5_chainmap_first_wins_monotone_witness :
    ([(5, 7)] : List (ℕ × ℕ)) <+:
        (([(3, 4)] : List (ℕ × ℕ)).foldl (round2Process ∅ (fun _ => 0) [2])
          ([(5, 7)], [(5, (1, 2))])).1 ∧
      ([(5, (1, 2))] : List (ℕ × ℕ × ℕ)) <+:
        (([(3, 4)] : List (ℕ × ℕ)).foldl (round2Process ∅ (fun _ => 0) [2])
          ([(5, 7)], [(5, (1, 2))])).2 ∧
      (([(3, 4)] : List (ℕ × ℕ)).foldl (round2Process ∅ (fun _ => 0) [2])
        ([(5, 7)], [(5, (1, 2))])).1.lookup 5 = some 7 ∧
      (([(3, 4)] : List (ℕ × ℕ)).foldl (round2Process ∅ (fun _ => 0) [2])
        ([(5, 7)], [(5, (1, 2))])).2.lookup 5 = some (1, 2) ∧
      round2Low2Step ∅ 0 0 0 0 0 ([(5, 7)], [(5, (1, 2))]) 5 = ([(5, 7)], [(5, (1, 2))]) :=
  C5_chainmap_first_wins_monotone ∅ (fun _ => 0) [2] [(3, 4)] ([(5, 7)], [(5, (1, 2))])
    5 7 (1, 2) 0 0 0 0 0 (by decide) (by decide)

/-! The sentinel `low1 == 0` (for C6) -/

lemma round2Low2Step_back_nonzero (key_highs : Finset ℕ) (pl ph cks l1 h1 : ℕ)
    (hl1 : l1 ≠ 0) (st : List (ℕ × ℕ) × List (ℕ × ℕ × ℕ)) (low2 : ℕ)
    (hinv : ∀ e ∈ st.2, e.2.1 ≠ 0) :
    ∀ e ∈ (round2Low2Step key_highs pl ph cks l1 h1 st low2).2, e.2.1 ≠ 0 := by
  unfold round2Low2Step
  split
  · exact hinv
  · split
    · intro e he
      rcases List.mem_append.mp he with h | h
      · exact hinv e h
      · rw [List.mem_singleton] at h
        subst h
        exact hl1
    · exact hinv

lemma foldl_round2Low2Step_back_nonzero (key_highs : Finset ℕ) (pl ph cks l1 h1 : ℕ)
    (hl1 : l1 ≠ 0) (lows : List ℕ) :
    ∀ st : List (ℕ × ℕ) × List (ℕ × ℕ × ℕ), (∀ e ∈ st.2, e.2.1 ≠ 0) →
      ∀ e ∈ (lows.foldl (round2Low2Step key_highs pl ph cks l1 h1) st).2, e.2.1 ≠ 0 := by
  induction lows with
  | nil => intro st hinv; exact hinv
  | cons x r ih =>
      intro st hinv
      rw [List.foldl_cons]
      exact ih _ (round2Low2Step_back_nonzero key_highs pl ph cks l1 h1 hl1 st x hinv)

lemma round2Process_back_nonzero (key_highs : Finset ℕ) (move_pps : ℕ → ℕ)
    (key_lows : List ℕ) (st : List (ℕ × ℕ) × List (ℕ × ℕ × ℕ)) (pair : ℕ × ℕ)
    (hinv : ∀ e ∈ st.2, e.2.1 ≠ 0) :
    ∀ e ∈ (round2Process key_highs move_pps key_lows st pair).2, e.2.1 ≠ 0 := by
  unfold round2Process
  split
  · exact hinv
  · next hne =>
      exact foldl_round2Low2Step_back_nonzero _ _ _ _ _ _ hne _ _ hinv

lemma foldl_round2Process_back_nonzero (key_highs : Finset ℕ) (move_pps : ℕ → ℕ)
    (key_lows : List ℕ) (pairs : List (ℕ × ℕ)) :
    ∀ st : List (ℕ × ℕ) × List (ℕ × ℕ × ℕ), (∀ e ∈ st.2, e.2.1 ≠ 0) →
      ∀ e ∈ (pairs.foldl (round2Process key_highs move_pps key_lows) st).2, e.2.1 ≠ 0 := by
  induction pairs with
  | nil => intro st hinv; exact hinv
  | cons p r ih =>
      intro st hinv
      rw [List.foldl_cons]
      exact ih _ (round2Process_back_nonzero key_highs move_pps key_lows st p hinv)

/-- Claim C6: the reserved sentinel `low1 == 0` never appears as a chain
source — a round-1 pair with low component 0 is skipped before any derivation,
and every back-reference recorded by `get_round_2` has a nonzero `low1`. -/
theorem C6_sentinel_zero_never_chain_source
    (xor_values : Finset ℕ) (key_lows : List ℕ) (key_highs : Finset ℕ)
    (move_pps : ℕ → ℕ) (l2 l1 h1 : ℕ)
    (hmem : (l2, l1, h1) ∈ (get_round_2 xor_values key_lows key_highs move_pps).2) :
    l1 ≠ 0 ∧
      ∀ (st : List (ℕ × ℕ) × List (ℕ × ℕ × ℕ)) (h : ℕ),
        round2Process key_highs move_pps key_lows st (0, h) = st := by
  constructor
  · exact foldl_round2Process_back_nonzero key_highs move_pps key_lows _ ([], [])
      (by simp) (l2, l1, h1) hmem
  · intro st h
    unfold round2Process
    exact if_pos rfl

/-- Witness for C6 at a concrete run that records one chain. -/
theorem C6_sentinel_zero_never_chain_source_witness :
    (8192 : ℕ) ≠ 0 ∧
      ∀ (st : List (ℕ × ℕ) × List (ℕ × ℕ × ℕ)) (h : ℕ),
        round2Process {8191} (fun _ => 0) [1] st (0, h) = st :=
  C6_sentinel_zero_never_chain_source {8192} [1] {8191} (fun _ => 0) 1 8192 8192
    (by simp only [get_round_2, get_round_1, Finset.sort_singleton]; decide)

/-! The two-step checksum equation (for C2) -/

/-- The full two-step checksum property a recorded chain entry must satisfy:
the claim's equation modulo `2 ^ 16`, plus high-admissibility of `h2`. -/
def ChainProp (key_highs : Finset ℕ) (move_pps : ℕ → ℕ) (l2 h2 l1 h1 : ℕ) : Prop :=
  (11 * l2 + ((packed_pps_low move_pps l1 h1 ^^^ l1) ^^^ l2) + 11 * h2 +
      ((packed_pps_high move_pps l1 h1 ^^^ h1) ^^^ h2)) % 2 ^ 16
    = (11 * l1 + 11 * h1 + packed_pps_low move_pps l1 h1 +
        packed_pps_high move_pps l1 h1) % 2 ^ 16
    ∧ h2 ∈ key_highs

/-- Invariant carried by `get_round_2`'s fold: both maps list the same keys in
the same order, and every matched pair of entries satisfies the chain
property. -/
def R2Inv (key_highs : Finset ℕ) (move_pps : ℕ → ℕ)
    (st : List (ℕ × ℕ) × List (ℕ × ℕ × ℕ)) : Prop :=
  st.1.map Prod.fst = st.2.map Prod.fst ∧
  ∀ l2 h2 l1 h1, (l2, h2) ∈ st.1 → (l2, l1, h1) ∈ st.2 →
    ChainProp key_highs move_pps l2 h2 l1 h1

set_option maxHeartbeats 1000000 in
lemma round2Low2Step_inv (key_highs : Finset ℕ) (move_pps : ℕ → ℕ) (l1 h1 : ℕ)
    (st : List (ℕ × ℕ) × List (ℕ × ℕ × ℕ)) (low2 : ℕ)
    (hinv : R2Inv key_highs move_pps st) :
    R2Inv key_highs move_pps
      (round2Low2Step key_highs (packed_pps_low move_pps l1 h1 ^^^ l1)
        (packed_pps_high move_pps l1 h1 ^^^ h1)
        (l1 * 11 + h1 * 11 + packed_pps_low move_pps l1 h1 +
          packed_pps_high move_pps l1 h1)
        l1 h1 st low2) := by
  unfold round2Low2Step
  split
  · exact hinv
  · next hguard =>
      split
      · next s hfind =>
          obtain ⟨hkeys, hok⟩ := hinv
          have hsmem : s ∈ key_highs := by
            have hdec := List.find?_some hfind
            simp only [decide_eq_true_eq] at hdec
            exact hdec
          have hsound := solveBits_sound (List.mem_of_find?_eq_some hfind)
          constructor
          · simp only [List.map_append, List.map_cons, List.map_nil, hkeys]
          · intro l2' h2' l1' h1' hm1 hm2
            rw [List.mem_append, List.mem_singleton] at hm1 hm2
            rcases hm1 with hm1 | hm1 <;> rcases hm2 with hm2 | hm2
            · exact hok _ _ _ _ hm1 hm2
            · exfalso
              injection hm2 with e1 e2
              exact hguard (by rw [← e1]; exact lookup_isSome_of_mem hm1)
            · exfalso
              injection hm1 with e1 e2
              have hk2 : l2' ∈ st.2.map Prod.fst :=
                List.mem_map.mpr ⟨(l2', l1', h1'), hm2, rfl⟩
              rw [← hkeys] at hk2
              obtain ⟨p, hpmem, hfst⟩ := List.mem_map.mp hk2
              refine hguard ?_
              rw [← e1, ← hfst]
              exact lookup_isSome_of_mem (show (p.1, p.2) ∈ st.1 from by
                rwa [Prod.mk.eta])
            · injection hm1 with e1 e2
              injection hm2 with f1 f2
              injection f2 with g1 g2
              subst e1
              subst e2
              subst g1
              subst g2
              constructor
              · push_cast at hsound
                omega
              · exact hsmem
      · exact hinv

set_option maxHeartbeats 1000000 in
lemma foldl_round2Low2Step_inv (key_highs : Finset ℕ) (move_pps : ℕ → ℕ)
    (l1 h1 : ℕ) (lows : List ℕ) :
    ∀ st : List (ℕ × ℕ) × List (ℕ × ℕ × ℕ), R2Inv key_highs move_pps st →
      R2Inv key_highs move_pps
        (lows.foldl (round2Low2Step key_highs (packed_pps_low move_pps l1 h1 ^^^ l1)
          (packed_pps_high move_pps l1 h1 ^^^ h1)
          (l1 * 11 + h1 * 11 + packed_pps_low move_pps l1 h1 +
            packed_pps_high move_pps l1 h1)
          l1 h1) st) := by
  induction lows with
  | nil => intro st hinv; exact hinv
  | cons x r ih =>
      intro st hinv
      rw [List.foldl_cons]
      exact ih _ (round2Low2Step_inv key_highs move_pps l1 h1 st x hinv)

lemma round2Process_inv (key_highs : Finset ℕ) (move_pps : ℕ → ℕ)
    (key_lows : List ℕ) (st : List (ℕ × ℕ) × List (ℕ × ℕ × ℕ)) (pair : ℕ × ℕ)
    (hinv : R2Inv key_highs move_pps st) :
    R2Inv key_highs move_pps (round2Process key_highs move_pps key_lows st pair) := by
  unfold round2Process
  split
  · exact hinv
  · exact foldl_round2Low2Step_inv key_highs move_pps pair.1 pair.2 key_lows st hinv

lemma foldl_round2Process_inv (key_highs : Finset ℕ) (move_pps : ℕ → ℕ)
    (key_lows : List ℕ) (pairs : List (ℕ × ℕ)) :
    ∀ st : List (ℕ × ℕ) × List (ℕ × ℕ × ℕ), R2Inv key_highs move_pps st →
      R2Inv key_highs move_pps
        (pairs.foldl (round2Process key_highs move_pps key_lows) st) := by
  induction pairs with
  | nil => intro st hinv; exact hinv
  | cons p r ih =>
      intro st hinv
      rw [List.foldl_cons]
      exact ih _ (round2Process_inv key_highs move_pps key_lows st p hinv)

/-- Claim C2: every entry `low2 ↦ high2` of the ChainMap, with its recorded
back-reference `(low1, high1)`, satisfies the exact two-step checksum equation
modulo `2 ^ 16` with the packed PP words derived from `(low1, high1)` via
`calc_move_pp` and the `move_pps` table — and `high2` lies in the
high-admissible set. -/
theorem C2_chain_entries_satisfy_two_step_equation
    (xor_values : Finset ℕ) (key_lows : List ℕ) (key_highs : Finset ℕ)
    (move_pps : ℕ → ℕ) (l2 h2 l1 h1 : ℕ)
    (hm1 : (l2, h2) ∈ (get_round_2 xor_values key_lows key_highs move_pps).1)
    (hm2 : (l2, l1, h1) ∈ (get_round_2 xor_values key_lows key_highs move_pps).2) :
    (11 * l2 + ((packed_pps_low move_pps l1 h1 ^^^ l1) ^^^ l2) + 11 * h2 +
        ((packed_pps_high move_pps l1 h1 ^^^ h1) ^^^ h2)) % 2 ^ 16
      = (11 * l1 + 11 * h1 + packed_pps_low move_pps l1 h1 +
          packed_pps_high move_pps l1 h1) % 2 ^ 16 ∧
      h2 ∈ key_highs := by
  have hinv0 : R2Inv key_highs move_pps ([], []) := by
    constructor
    · rfl
    · intro l2' h2' l1' h1' hm hm'
      cases hm
  have hinv := foldl_round2Process_inv key_highs move_pps key_lows
    ((get_round_1 xor_values xor_values).flatMap fun p =>
      p.2.map fun key_high => (p.1, key_high)) ([], []) hinv0
  exact hinv.2 l2 h2 l1 h1 hm1 hm2

/-- Witness for C2 at a concrete run that records the chain
`low2 = 1 ↦ high2 = 8191` backed by the round-1 pair `(8192, 8192)`. -/
theorem C2_chain_entries_satisfy_two_step_equation_witness :
    (11 * 1 + ((packed_pps_low (fun _ => 0) 8192 8192 ^^^ 8192) ^^^ 1) + 11 * 8191 +
        ((packed_pps_high (fun _ => 0) 8192 8192 ^^^ 8192) ^^^ 8191)) % 2 ^ 16
      = (11 * 8192 + 11 * 8192 + packed_pps_low (fun _ => 0) 8192 8192 +
          packed_pps_high (fun _ => 0) 8192 8192) % 2 ^ 16 ∧
      (8191 : ℕ) ∈ ({8191} : Finset ℕ) :=
  C2_chain_entries_satisfy_two_step_equation {8192} [1] {8191} (fun _ => 0) 1 8191 8192 8192
    (by simp only [get_round_2, get_round_1, Finset.sort_singleton]; decide)
    (by simp only [get_round_2, get_round_1, Finset.sort_singleton]; decide)

/-! Message assembler (for C7 and C10) -/

/-- Claim C7: the Message Assembler fails with a domain error carrying the
offending value exactly when the requested target is not admissible; the check
runs up front, so the failing case returns the bare error and produces no
chains at all. -/
theorem C7_calc_messages_domain_error
    (target_species : ℕ) (xor_values : Finset ℕ) (round_1_map : List (ℕ × ℕ)) :
    (target_species ∉ xor_values →
      calc_messages target_species xor_values round_1_map = Except.error target_species) ∧
    (target_species ∈ xor_values →
      ∃ msgs, calc_messages target_species xor_values round_1_map = Except.ok msgs) := by
  constructor
  · intro h
    unfold calc_messages
    rw [if_neg h]
  · intro h
    unfold calc_messages
    rw [if_pos h]
    exact ⟨_, rfl⟩

/-- Witness for C7: one inadmissible and one admissible target. -/
theorem C7_calc_messages_domain_error_witness :
    calc_messages 5 {1} [] = Except.error 5 ∧
      ∃ msgs, calc_messages 1 {1} [] = Except.ok msgs :=
  ⟨(C7_calc_messages_domain_error 5 {1} []).1 (by decide),
    (C7_calc_messages_domain_error 1 {1} []).2 (by decide)⟩

/-- Claim C10: a round-1 pair whose `key_high` equals 0 never contributes a
length-2 chain: `target_checksum` is computed as `2 ^ 16 - key_high` with no
16-bit masking, so for `key_high = 0` it equals `0x10000`, a value the
16-bit-masked second-round checksum can never reach. -/
theorem C10_zero_key_high_contributes_no_chain
    (target_species : ℕ) (xor_values : Finset ℕ) (round_1_map : List (ℕ × ℕ))
    (msgs : List (List (ℕ × ℕ)))
    (hok : calc_messages target_species xor_values round_1_map = Except.ok msgs)
    (c : List (ℕ × ℕ)) (hc : c ∈ msgs) (kl kh : ℕ) (p2 : ℕ × ℕ)
    (hform : c = [(kl, kh), p2]) :
    kh ≠ 0 := by
  unfold calc_messages at hok
  split at hok
  · injection hok with hmsgs
    rw [← hmsgs] at hc
    rcases List.mem_append.mp hc with h | h
    · cases hlk : round_1_map.lookup target_species with
      | some key_high =>
          rw [hlk] at h
          rw [List.mem_singleton] at h
          rw [hform] at h
          simp at h
      | none =>
          rw [hlk] at h
          cases h
    · rw [List.mem_flatMap] at h
      obtain ⟨p, hp, hcin⟩ := h
      rw [List.mem_filterMap] at hcin
      obtain ⟨nk, hnk, hsome⟩ := hcin
      split at hsome
      · cases hsome
      · split at hsome
        · next hcond =>
            injection hsome with hceq
            rw [hform] at hceq
            injection hceq with hpair htail
            injection htail with hpair2 hnil
            injection hpair with hkl hkh
            intro h0
            rw [hkh, h0] at hcond
            push_cast at hcond
            omega
        · cases hsome
  · cases hok

/-- Witness for C10 at a concrete run that produces length-2 chains. -/
theorem C10_zero_key_high_contributes_no_chain_witness :
    (0x8000 : ℕ) ≠ 0 := by
  have hsort : ({0, 0x8000} : Finset ℕ).sort (· ≤ ·) = [0, 0x8000] := by
    rw [Finset.sort_insert, Finset.sort_singleton]
    · intro b hb; simp at hb; omega
    · decide
  refine C10_zero_key_high_contributes_no_chain 0 {0, 0x8000} [(7, 0x8000)]
    [[(7, 0x8000), (0, 0)], [(7, 0x8000), (0, 0x8000)]] ?_
    [(7, 0x8000), (0, 0)] (by decide) 7 0x8000 (0, 0) rfl
  simp only [calc_messages, hsort]
  rw [if_pos (by decide : (0 : ℕ) ∈ ({0, 0x8000} : Finset ℕ))]
  exact congrArg Except.ok (by decide)
